import Mathlib

/-!
# FlacFixer — verification of the core metadata-normalisation logic

Shallow embedding of `FlacFixer.py`: the padding policy (`padding_rules`),
the legacy-tag probe (`check_id3_header`), the picture archive path
construction (`make_save_path`), the deduplicating picture archiver
(`save_pictures`), and the per-file orchestration (`track_work`) with the
batch loop (`mainLoop`).

Conventions:
* Python `int` is embedded as `Int` (`Nat` where the source value is a
  length or a count).
* File paths and other strings are embedded as `List Char`; the filesystem
  is a finite list of existing file paths.
* Raw bytes are embedded as `List Nat`.
* Fallible operations return `Except`; a raised exception that the source
  does not catch is an `Except.error`.
-/

/-! ## Padding policy (source: `padding_wrapper` / `padding_rules`) -/

/-- Embedding of the inner `padding_rules` function: given the configured
`(size, up, low)` thresholds (KiB) and the current padding (bytes), return
the padding size to write.  Mirrors
`if 1024 * low <= y.padding <= 1024 * up: return y.padding else: return 1024 * size`. -/
def padding_rules (size up low : Int) (padding : Int) : Int :=
  if 1024 * low ≤ padding ∧ padding ≤ 1024 * up then padding else 1024 * size

/-! ## Legacy ID3 tag probe (source: `FlacProps.check_id3_header`) -/

/-- Embedding of `fileobj.seek(off, 2)` (seek relative to end of file) for a
file of the given content: Python raises `OSError: Invalid argument` when the
resulting absolute position is negative. -/
def seekEnd (bytes : List Nat) (off : Int) : Except String Nat :=
  if (bytes.length : Int) + off < 0 then .error "Invalid argument"
  else .ok ((bytes.length : Int) + off).toNat

/-- Embedding of `fileobj.read(n)` at an explicit position. -/
def readAt (bytes : List Nat) (pos n : Nat) : List Nat :=
  (bytes.drop pos).take n

/-- Embedding of `FlacProps.check_id3_header`: reads the first three bytes
looking for `b"ID3"`, then seeks to 128 bytes before the end of the file and
reads three bytes looking for `b"TAG"`.  The seek raises (propagated as
`Except.error`) when the file is shorter than 128 bytes. -/
def check_id3_header (bytes : List Nat) : Except String (List String) :=
  let header := readAt bytes 0 3
  let ht : List String := if header = [0x49, 0x44, 0x33] then ["id3v2"] else []
  match seekEnd bytes (-128) with
  | .error e => .error e
  | .ok pos =>
      let header_v1 := readAt bytes pos 3
      .ok (if header_v1 = [0x54, 0x41, 0x47] then ht ++ ["id3v1"] else ht)

/-! ## Theorems for claims C1, C9, C5 -/

/-- C1: for every current padding value and every configured
`(target, upper, lower)` triple, the padding policy returns the current
value verbatim when it lies in the inclusive band
`[lower*1024, upper*1024]`, returns exactly `target*1024` otherwise, and
never returns any other value; it is a pure total function. -/
theorem flacfixer_C1 (size up low c : Int) :
    (1024 * low ≤ c ∧ c ≤ 1024 * up → padding_rules size up low c = c) ∧
    (¬(1024 * low ≤ c ∧ c ≤ 1024 * up) → padding_rules size up low c = 1024 * size) ∧
    (padding_rules size up low c = c ∨ padding_rules size up low c = 1024 * size) := by
  refine ⟨fun h => ?_, fun h => ?_, ?_⟩
  · simp [padding_rules, h]
  · simp [padding_rules, h]
  · by_cases h : 1024 * low ≤ c ∧ c ≤ 1024 * up
    · exact Or.inl (by simp [padding_rules, h])
    · exact Or.inr (by simp [padding_rules, h])

/-- Witness for C1 at the spec scenario: padding 10240 with thresholds
`target=8, upper=20, lower=4` is left unchanged. -/
theorem flacfixer_C1_witness : padding_rules 8 20 4 10240 = 10240 :=
  (flacfixer_C1 8 20 4 10240).1 (by decide)

/-- C9: the padding policy is idempotent.  Values inside the configured
band are fixed by any number of applications; in general, applying the
policy twice gives the same result as applying it once. -/
theorem flacfixer_C9 (size up low c : Int) :
    (1024 * low ≤ c → c ≤ 1024 * up →
      ∀ n, (padding_rules size up low)^[n] c = c) ∧
    padding_rules size up low (padding_rules size up low c) =
      padding_rules size up low c := by
  constructor
  · intro h1 h2 n
    induction n with
    | zero => rfl
    | succ k ih =>
        rw [Function.iterate_succ_apply, show padding_rules size up low c = c by
          simp [padding_rules, h1, h2], ih]
  · by_cases h : 1024 * low ≤ c ∧ c ≤ 1024 * up
    · simp [padding_rules, h.1, h.2]
    · have hc : padding_rules size up low c = 1024 * size := by
        simp [padding_rules, h]
      rw [hc]
      by_cases h2 : 1024 * low ≤ 1024 * size ∧ 1024 * size ≤ 1024 * up
      · simp [padding_rules, h2.1, h2.2]
      · simp only [padding_rules, if_neg h2]

/-- Witness for C9: three applications inside the band leave 10240 unchanged. -/
theorem flacfixer_C9_witness : (padding_rules 8 20 4)^[3] 10240 = 10240 :=
  (flacfixer_C9 8 20 4 10240).1 (by decide) (by decide) 3

/-- C5 (code bug): on every file shorter than 128 bytes, the legacy-trailer
probe raises (`seek(-128, 2)` lands at a negative offset) instead of treating
the id3v1 trailer as absent. -/
theorem flacfixer_C5_bug (bytes : List Nat) (h : bytes.length < 128) :
    check_id3_header bytes = .error "Invalid argument" := by
  have hneg : (bytes.length : Int) + (-128) < 0 := by omega
  simp [check_id3_header, seekEnd, hneg]

/-- Witness for C5: the probe on an empty file errors out. -/
theorem flacfixer_C5_bug_witness :
    check_id3_header [] = Except.error "Invalid argument" :=
  flacfixer_C5_bug [] (by decide)

/-! ## String utilities (embedding Python `str.replace` and `str.split`) -/

/-- Worker for `replaceAll`, scanning left to right.  The counter is the
number of characters still to be skipped because they belong to an already
replaced occurrence of the pattern. -/
def replA (pat rep : List Char) : List Char → Nat → List Char
  | [], _ => []
  | _ :: s, k + 1 => replA pat rep s k
  | c :: s, 0 =>
      if pat.isPrefixOf (c :: s) && !pat.isEmpty then
        rep ++ replA pat rep s (pat.length - 1)
      else
        c :: replA pat rep s 0

/-- Embedding of Python `str.replace(pat, rep)`: replaces every
non-overlapping occurrence of `pat`, scanning left to right. -/
def replaceAll (pat rep s : List Char) : List Char :=
  replA pat rep s 0

/-- Decidable occurrence test: `occursIn pat s` is true when `pat` occurs
as a contiguous substring of `s`. -/
def occursIn (pat : List Char) : List Char → Bool
  | [] => List.isPrefixOf pat []
  | c :: s => List.isPrefixOf pat (c :: s) || occursIn pat s

/-- Embedding of Python `str.split('/')`. -/
def splitSlash : List Char → List (List Char)
  | [] => [[]]
  | c :: s =>
      match splitSlash s with
      | [] => [[]]
      | g :: gs => if c = '/' then [] :: g :: gs else (c :: g) :: gs

/-- Embedding of the extension computation in `make_save_path`:
`mime.split('/')[1].replace('jpeg', 'jpg')`, falling back to `'pic'` when
indexing raises `IndexError` (no `'/'` in the MIME string). -/
def extFromMime (mime : List Char) : List Char :=
  match splitSlash mime with
  | _ :: sub :: _ => replaceAll "jpeg".data "jpg".data sub
  | _ => "pic".data

/-! ### Lemmas about `replA` / `replaceAll` -/

theorem replA_cons_zero (pat rep : List Char) (c : Char) (s : List Char) :
    replA pat rep (c :: s) 0 =
      if pat.isPrefixOf (c :: s) && !pat.isEmpty then
        rep ++ replA pat rep s (pat.length - 1)
      else c :: replA pat rep s 0 := rfl

theorem replaceAll_def (pat rep s : List Char) :
    replaceAll pat rep s = replA pat rep s 0 := rfl

theorem replaceAll_of_not_occurs (pat rep : List Char) :
    ∀ s, occursIn pat s = false → replaceAll pat rep s = s := by
  intro s
  induction s with
  | nil => intro _; rfl
  | cons c s ih =>
      intro h
      simp only [occursIn, Bool.or_eq_false_iff] at h
      have hstep : replaceAll pat rep (c :: s) = c :: replaceAll pat rep s := by
        simp [replaceAll, replA, h.1]
      rw [hstep, ih h.2]

theorem occursIn_append_right (pat : List Char) :
    ∀ s t, occursIn pat s = true → occursIn pat (s ++ t) = true := by
  intro s
  induction s with
  | nil =>
      intro t h
      simp only [occursIn] at h
      have : pat = [] := by
        cases pat with
        | nil => rfl
        | cons p pt => simp [List.isPrefixOf] at h
      subst this
      cases t with
      | nil => simp [occursIn]
      | cons c t => simp [occursIn, List.isPrefixOf]
  | cons c s ih =>
      intro t h
      simp only [occursIn, Bool.or_eq_true] at h ⊢
      rcases h with h | h
      · left
        have := List.isPrefixOf_iff_prefix.mp h
        exact List.isPrefixOf_iff_prefix.mpr (this.trans (List.prefix_append _ _))
      · right; exact ih t h

theorem mem_replA (pat rep : List Char) :
    ∀ s k c, c ∈ replA pat rep s k → c ∈ s ∨ c ∈ rep := by
  intro s
  induction s with
  | nil => intro k c h; simp [replA] at h
  | cons a s ih =>
      intro k c h
      cases k with
      | succ k =>
          rcases ih k c h with h | h
          · exact Or.inl (List.mem_cons_of_mem _ h)
          · exact Or.inr h
      | zero =>
          by_cases hc : List.isPrefixOf pat (a :: s) && !pat.isEmpty
          · simp only [replA, if_pos hc, List.mem_append] at h
            rcases h with h | h
            · exact Or.inr h
            · rcases ih _ c h with h | h
              · exact Or.inl (List.mem_cons_of_mem _ h)
              · exact Or.inr h
          · simp only [replA, if_neg hc, List.mem_cons] at h
            rcases h with rfl | h
            · exact Or.inl (List.mem_cons_self _ _)
            · rcases ih _ c h with h | h
              · exact Or.inl (List.mem_cons_of_mem _ h)
              · exact Or.inr h

theorem replaceAll_ne_nil (pat rep s : List Char) (hrep : rep ≠ []) (hs : s ≠ []) :
    replaceAll pat rep s ≠ [] := by
  cases s with
  | nil => exact absurd rfl hs
  | cons a s =>
      cases hc : List.isPrefixOf pat (a :: s) && !pat.isEmpty with
      | true =>
          simp only [replaceAll, replA, hc, if_true]
          intro hcon
          rcases List.append_eq_nil.mp hcon with ⟨h1, _⟩
          exact hrep h1
      | false => simp [replaceAll, replA, hc]

/-! ### Lemmas about `splitSlash` -/

theorem splitSlash_ne_nil : ∀ s, splitSlash s ≠ [] := by
  intro s
  cases s with
  | nil => simp [splitSlash]
  | cons c s =>
      simp only [splitSlash]
      cases splitSlash s with
      | nil => simp
      | cons g gs =>
          by_cases hc : c = '/' <;> simp [hc]

theorem splitSlash_no_slash : ∀ s : List Char, '/' ∉ s → splitSlash s = [s] := by
  intro s
  induction s with
  | nil => intro _; rfl
  | cons c s ih =>
      intro h
      have hc : c ≠ '/' := fun hc => h (hc ▸ List.mem_cons_self _ _)
      have hs : '/' ∉ s := fun hs => h (List.mem_cons_of_mem _ hs)
      simp [splitSlash, ih hs, hc]

theorem splitSlash_cons_slash (t rest : List Char) (h : '/' ∉ t) :
    splitSlash (t ++ '/' :: rest) = t :: splitSlash rest := by
  induction t with
  | nil =>
      simp only [List.nil_append, splitSlash]
      cases hr : splitSlash rest with
      | nil => exact absurd hr (splitSlash_ne_nil rest)
      | cons g gs => simp
  | cons c t ih =>
      have hc : c ≠ '/' := fun hc2 => h (hc2 ▸ List.mem_cons_self _ _)
      have ht : '/' ∉ t := fun hs => h (List.mem_cons_of_mem _ hs)
      have hstep : splitSlash ((c :: t) ++ '/' :: rest) =
          match splitSlash (t ++ '/' :: rest) with
          | [] => [[]]
          | g :: gs => if c = '/' then [] :: g :: gs else (c :: g) :: gs := rfl
      rw [hstep, ih ht]
      simp [hc]

theorem mem_splitSlash (s : List Char) :
    ∀ g ∈ splitSlash s, '/' ∉ g := by
  induction s with
  | nil =>
      intro g hg
      simp only [splitSlash, List.mem_singleton] at hg
      simp [hg]
  | cons c s ih =>
      intro g hg
      simp only [splitSlash] at hg
      cases hr : splitSlash s with
      | nil => exact absurd hr (splitSlash_ne_nil s)
      | cons g0 gs =>
          rw [hr] at hg
          have hg2 : g ∈ (if c = '/' then [] :: g0 :: gs else (c :: g0) :: gs) := hg




          by_cases hc : c = '/'
          · rw [if_pos hc] at hg2
            rcases List.mem_cons.mp hg2 with rfl | hg3
            · simp
            · exact ih g (hr ▸ hg3)
          · rw [if_neg hc] at hg2
            rcases List.mem_cons.mp hg2 with rfl | hg3
            · intro hmem
              rcases List.mem_cons.mp hmem with h1 | h1
              · exact hc h1.symm
              · exact ih g0 (hr ▸ List.mem_cons_self _ _) h1
            · exact ih g (hr ▸ List.mem_cons_of_mem _ hg3)

/-! ## Theorems for claim C6 (extension derivation) -/

/-- Counterexample for C6 as stated: `image/jpeg2000` is a MIME string of
the form `type/subtype` with subtype `jpeg2000`, but the code produces
`jpg2000` — not the subtype verbatim — because `replace('jpeg', 'jpg')`
rewrites every occurrence of `jpeg` inside the subtype. -/
theorem flacfixer_C6_counterexample :
    extFromMime "image/jpeg2000".data ≠ "jpeg2000".data ∧
    extFromMime "image/jpeg2000".data = "jpg2000".data := by
  constructor
  · decide
  · decide

/-- C6 amended: the archive extension is `jpg` for `image/jpeg`; for any
other `type/subtype` MIME string it is the subtype with every occurrence of
`jpeg` replaced by `jpg` (hence the subtype verbatim whenever the subtype
does not contain `jpeg`); and it is the literal `pic` when the MIME string
contains no `/`. -/
theorem flacfixer_C6_amended :
    (extFromMime "image/jpeg".data = "jpg".data) ∧
    (∀ t sub : List Char, '/' ∉ t → '/' ∉ sub →
      extFromMime (t ++ '/' :: sub) = replaceAll "jpeg".data "jpg".data sub) ∧
    (∀ t sub : List Char, '/' ∉ t → '/' ∉ sub →
      occursIn "jpeg".data sub = false → extFromMime (t ++ '/' :: sub) = sub) ∧
    (∀ m : List Char, '/' ∉ m → extFromMime m = "pic".data) := by
  have hsplit : ∀ t sub : List Char, '/' ∉ t → '/' ∉ sub →
      extFromMime (t ++ '/' :: sub) = replaceAll "jpeg".data "jpg".data sub := by
    intro t sub ht hsub
    have h1 : splitSlash (t ++ '/' :: sub) = t :: [sub] := by
      rw [splitSlash_cons_slash t sub ht, splitSlash_no_slash sub hsub]
    simp [extFromMime, h1]
  refine ⟨by decide, hsplit, ?_, ?_⟩
  · intro t sub ht hsub hocc
    rw [hsplit t sub ht hsub, replaceAll_of_not_occurs _ _ sub hocc]
  · intro m hm
    simp [extFromMime, splitSlash_no_slash m hm]

/-- Witness for the amended C6: `image/png` keeps its subtype verbatim, and
`imagejpeg` (no slash) falls back to `pic`. -/
theorem flacfixer_C6_amended_witness :
    extFromMime ("image".data ++ '/' :: "png".data) = "png".data ∧
    extFromMime "imagejpeg".data = "pic".data :=
  ⟨(flacfixer_C6_amended.2.2.1) "image".data "png".data (by decide) (by decide)
      (by decide),
   (flacfixer_C6_amended.2.2.2) "imagejpeg".data (by decide)⟩

/-! ## Decimal rendering (embedding Python `'{}'.format(count)`) -/

/-- Decimal digit character for a value below ten. -/
def digCh (d : Nat) : Char := Char.ofNat (48 + d)

/-- Digit accumulator for decimal rendering; the first argument is fuel,
always called with fuel at least the value being rendered. -/
def decDigitsAux : Nat → Nat → List Char → List Char
  | 0, _, acc => acc
  | fuel + 1, n, acc =>
      if n = 0 then acc else decDigitsAux fuel (n / 10) (digCh (n % 10) :: acc)

/-- Embedding of Python decimal formatting of a non-negative integer. -/
def natToDecL (n : Nat) : List Char :=
  if n = 0 then ['0'] else decDigitsAux n n []

theorem mem_decDigitsAux :
    ∀ fuel n acc c, c ∈ decDigitsAux fuel n acc →
      (∃ d, d < 10 ∧ c = digCh d) ∨ c ∈ acc := by
  intro fuel
  induction fuel with
  | zero => intro n acc c h; exact Or.inr h
  | succ fuel ih =>
      intro n acc c h
      by_cases hn : n = 0
      · rw [decDigitsAux, if_pos hn] at h; exact Or.inr h
      · rw [decDigitsAux, if_neg hn] at h
        rcases ih (n / 10) (digCh (n % 10) :: acc) c h with h2 | h2
        · exact Or.inl h2
        · rcases List.mem_cons.mp h2 with rfl | h3
          · exact Or.inl ⟨n % 10, Nat.mod_lt _ (by norm_num), rfl⟩
          · exact Or.inr h3

theorem digCh_ne_slash (d : Nat) (h : d < 10) : digCh d ≠ '/' := by
  interval_cases d <;> decide

theorem slash_not_mem_natToDecL (n : Nat) : '/' ∉ natToDecL n := by
  intro hmem
  by_cases hn : n = 0
  · rw [natToDecL, if_pos hn] at hmem
    simp at hmem
  · rw [natToDecL, if_neg hn] at hmem
    rcases mem_decDigitsAux n n [] _ hmem with ⟨d, hd, heq⟩ | h2
    · exact digCh_ne_slash d hd heq.symm
    · simp at h2

/-- Everything up to and including the last `'/'` of a path (the `head`
computed by `posixpath.dirname` before stripping trailing slashes). -/
def lastSlashHead (p : List Char) : List Char :=
  (p.reverse.dropWhile (fun c => c != '/')).reverse

/-- Strips trailing slashes (Python `head.rstrip('/')`). -/
def rstripSlash (h : List Char) : List Char :=
  (h.reverse.dropWhile (fun c => c == '/')).reverse

/-- Embedding of `os.path.dirname` (POSIX): keep everything before the last
slash; strip trailing slashes from the result unless it consists only of
slashes. -/
def dirnameL (p : List Char) : List Char :=
  if lastSlashHead p = [] then []
  else if (lastSlashHead p).all (fun c => c == '/') then lastSlashHead p
  else rstripSlash (lastSlashHead p)

/-- Embedding of `os.path.join(a, b)` (POSIX, two components): `b` wins when
absolute; otherwise insert a separator unless `a` is empty or already ends
with one. -/
def joinPathL (a b : List Char) : List Char :=
  if b.head? = some '/' then b
  else if a = [] then b
  else if a.getLast? = some '/' then a ++ b
  else a ++ '/' :: b

/-- Shape of every value `os.path.dirname` can return: empty, all slashes,
or with no trailing slash. -/
def DirShape (d : List Char) : Prop :=
  d = [] ∨ (d ≠ [] ∧ ∀ c ∈ d, c = '/') ∨ (d ≠ [] ∧ d.getLast? ≠ some '/')

/-! ### Lemmas about the path functions -/

theorem dropWhile_append_all {p : Char → Bool} :
    ∀ l1 l2 : List Char, (∀ x ∈ l1, p x = true) →
      List.dropWhile p (l1 ++ l2) = List.dropWhile p l2 := by
  intro l1
  induction l1 with
  | nil => intro l2 _; rfl
  | cons c l1 ih =>
      intro l2 h
      have hc : p c = true := h c (List.mem_cons_self _ _)
      simp only [List.cons_append, List.dropWhile, hc]
      exact ih l2 fun x hx => h x (List.mem_cons_of_mem _ hx)

theorem dropWhile_all_true {p : Char → Bool} (l : List Char)
    (h : ∀ x ∈ l, p x = true) : List.dropWhile p l = [] := by
  have := dropWhile_append_all l [] h
  simpa using this

theorem dropWhile_cons_false {p : Char → Bool} (c : Char) (l : List Char)
    (h : p c = false) : List.dropWhile p (c :: l) = c :: l := by
  simp [List.dropWhile, h]

theorem head?_dropWhile {p : Char → Bool} :
    ∀ l : List Char, ∀ c, (List.dropWhile p l).head? = some c → p c = false := by
  intro l
  induction l with
  | nil => intro c h; simp [List.dropWhile] at h
  | cons a l ih =>
      intro c h
      cases ha : p a with
      | true =>
          rw [List.dropWhile, ha] at h
          exact ih c h
      | false =>
          rw [List.dropWhile, ha] at h
          simp only [List.head?_cons, Option.some.injEq] at h
          rwa [← h]

theorem lastSlashHead_no_slash (s : List Char) (h : '/' ∉ s) :
    lastSlashHead s = [] := by
  rw [lastSlashHead, dropWhile_all_true, List.reverse_nil]
  intro x hx
  have : x ≠ '/' := fun he => h (he ▸ List.mem_reverse.mp hx)
  simpa using this

theorem dirnameL_no_slash (s : List Char) (h : '/' ∉ s) :
    dirnameL s = [] := by
  rw [dirnameL]
  simp [lastSlashHead_no_slash s h]

theorem lastSlashHead_append_sep (a b : List Char) (h : '/' ∉ b) :
    lastSlashHead (a ++ '/' :: b) = a ++ ['/'] := by
  rw [lastSlashHead, List.reverse_append, List.reverse_cons,
    List.append_assoc, dropWhile_append_all]
  · rw [List.singleton_append, dropWhile_cons_false _ _ (by decide)]
    simp
  · intro x hx
    have : x ≠ '/' := fun he => h (he ▸ List.mem_reverse.mp hx)
    simpa using this

theorem lastSlashHead_append_no_slash (a b : List Char) (h : '/' ∉ b) :
    lastSlashHead (a ++ b) = lastSlashHead a := by
  rw [lastSlashHead, lastSlashHead, List.reverse_append, dropWhile_append_all]
  intro x hx
  have : x ≠ '/' := fun he => h (he ▸ List.mem_reverse.mp hx)
  simpa using this

theorem lastSlashHead_all_slash (a : List Char) (ha : a ≠ [])
    (h : ∀ c ∈ a, c = '/') : lastSlashHead a = a := by
  rw [lastSlashHead]
  cases hr : a.reverse with
  | nil => exact absurd (by simpa using congrArg List.reverse hr) ha
  | cons c t =>
      have hc : c = '/' := h c (List.mem_reverse.mp (hr ▸ List.mem_cons_self _ _))
      rw [dropWhile_cons_false _ _ (by simp [hc]), ← hr, List.reverse_reverse]

theorem getLast?_all_slash (a : List Char) (ha : a ≠ []) (h : ∀ c ∈ a, c = '/') :
    a.getLast? = some '/' := by
  rw [List.getLast?_eq_getLast a ha]
  exact congrArg some (h _ (List.getLast_mem ha))

theorem dirnameL_shape (p : List Char) : DirShape (dirnameL p) := by
  rw [dirnameL]
  by_cases h0 : lastSlashHead p = []
  · simp [h0, DirShape]
  · rw [if_neg h0]
    by_cases hall : (lastSlashHead p).all (fun c => c == '/')
    · rw [if_pos hall]
      refine Or.inr (Or.inl ⟨h0, fun c hc => ?_⟩)
      have := List.all_eq_true.mp hall c hc
      simpa using this
    · rw [if_neg hall]
      refine Or.inr (Or.inr ?_)
      cases hd : List.dropWhile (fun c => c == '/') (lastSlashHead p).reverse with
      | nil =>
          exfalso
          have hallrev := List.dropWhile_eq_nil_iff.mp hd
          exact hall (List.all_eq_true.mpr fun c hc =>
            hallrev c (List.mem_reverse.mpr hc))
      | cons c t =>
          have hc : (c == '/') = false :=
            head?_dropWhile (lastSlashHead p).reverse c (by rw [hd]; rfl)
          constructor
          · rw [rstripSlash, hd]; simp
          · rw [rstripSlash, hd, List.getLast?_reverse]
            simp only [List.head?_cons, ne_eq, Option.some.injEq]
            intro hcon
            rw [hcon] at hc
            simp at hc

theorem dirnameL_joinPathL (loc b : List Char) (hshape : DirShape loc)
    (hb : '/' ∉ b) (hbh : b.head? ≠ some '/') :
    dirnameL (joinPathL loc b) = loc := by
  rcases hshape with rfl | ⟨hne, hall⟩ | ⟨hne, hlast⟩
  · rw [joinPathL, if_neg hbh, if_pos rfl]
    exact dirnameL_no_slash b hb
  · have hlast : loc.getLast? = some '/' := getLast?_all_slash loc hne hall
    rw [joinPathL, if_neg hbh, if_neg hne, if_pos hlast]
    have hh : lastSlashHead (loc ++ b) = loc := by
      rw [lastSlashHead_append_no_slash loc b hb, lastSlashHead_all_slash loc hne hall]
    rw [dirnameL, hh, if_neg hne,
      if_pos (List.all_eq_true.mpr fun c hc => by simpa using hall c hc)]
  · rw [joinPathL, if_neg hbh, if_neg hne, if_neg hlast]
    rw [dirnameL, lastSlashHead_append_sep loc b hb]
    have h0 : loc ++ ['/'] ≠ [] := by simp
    rw [if_neg h0]
    have hnall : ¬((loc ++ ['/']).all (fun c => c == '/') = true) := by
      intro hcon
      have hloc : ∀ c ∈ loc, c = '/' := fun c hc => by
        have := List.all_eq_true.mp hcon c (List.mem_append_left _ hc)
        simpa using this
      exact hlast (getLast?_all_slash loc hne hloc)
    rw [if_neg hnall, rstripSlash, List.reverse_append]
    have hrev : (['/'] : List Char).reverse = ['/'] := rfl
    rw [hrev, List.singleton_append, List.dropWhile_cons]
    rw [if_pos (by decide)]
    cases hr : loc.reverse with
    | nil => exact absurd (by simpa using congrArg List.reverse hr) hne
    | cons c t =>
        have hch : some c = loc.getLast? := by
          rw [← List.head?_reverse, hr, List.head?_cons]
        have hc : (c == '/') = false := by
          have : c ≠ '/' := fun he => hlast (by rw [← hch, he])
          simpa using this
        rw [show List.dropWhile (fun x => x == '/') (c :: t) = c :: t from
          dropWhile_cons_false c t hc, ← hr, List.reverse_reverse]

/-! ### Prefix and occurrence helpers -/

theorem prefix_of_append_le : ∀ (pat a b : List Char),
    pat <+: a ++ b → pat.length ≤ a.length → pat <+: a := by
  intro pat
  induction pat with
  | nil => intro a b _ _; exact List.nil_prefix
  | cons p pt ih =>
      intro a b hpre hl
      cases a with
      | nil => simp at hl
      | cons x a2 =>
          obtain ⟨t, ht⟩ := hpre
          simp only [List.cons_append, List.cons.injEq] at ht
          obtain ⟨rfl, ht2⟩ := ht
          have h2 : pt <+: a2 ++ b := ⟨t, ht2⟩
          have h3 : pt <+: a2 := ih a2 b h2 (by simpa using hl)
          obtain ⟨u, hu⟩ := h3
          exact ⟨u, by simp [hu]⟩

theorem mem_of_prefix_append_lt : ∀ (pat a : List Char) (c0 : Char) (b : List Char),
    pat <+: a ++ c0 :: b → a.length < pat.length → c0 ∈ pat := by
  intro pat
  induction pat with
  | nil => intro a c0 b _ hl; simp at hl
  | cons p pt ih =>
      intro a c0 b hpre hl
      cases a with
      | nil =>
          obtain ⟨t, ht⟩ := hpre
          simp only [List.nil_append, List.cons_append, List.cons.injEq] at ht
          exact ht.1 ▸ List.mem_cons_self _ _
      | cons x a2 =>
          obtain ⟨t, ht⟩ := hpre
          simp only [List.cons_append, List.cons.injEq] at ht
          obtain ⟨rfl, ht2⟩ := ht
          exact List.mem_cons_of_mem _ (ih a2 c0 b ⟨t, ht2⟩ (by simpa using hl))

/-- Replacing across a separator: when the pattern contains no `'/'` and
does not occur in the part before a separator, replacement leaves that part
and the separator untouched. -/
theorem replaceAll_append_sep (pat rep : List Char) (hpne : pat ≠ [])
    (hps : '/' ∉ pat) :
    ∀ L rest, occursIn pat L = false →
      replaceAll pat rep (L ++ '/' :: rest) = L ++ '/' :: replaceAll pat rep rest := by
  intro L
  induction L with
  | nil =>
      intro rest _
      have hnp : List.isPrefixOf pat ('/' :: rest) = false := by
        cases pat with
        | nil => exact absurd rfl hpne
        | cons p pt =>
            have hp : p ≠ '/' := fun he => hps (he ▸ List.mem_cons_self _ _)
            simp [List.isPrefixOf, hp]
      rw [List.nil_append, replaceAll_def, replA_cons_zero, hnp]
      simp only [Bool.false_and, Bool.false_eq_true, if_false, List.nil_append]
      rfl
  | cons c L ih =>
      intro rest hocc
      simp only [occursIn, Bool.or_eq_false_iff] at hocc
      have hnp : List.isPrefixOf pat (c :: (L ++ '/' :: rest)) = false := by
        cases hcon : List.isPrefixOf pat (c :: (L ++ '/' :: rest)) with
        | false => rfl
        | true =>
            exfalso
            have hpre : pat <+: (c :: L) ++ '/' :: rest :=
              List.isPrefixOf_iff_prefix.mp hcon
            by_cases hl : pat.length ≤ (c :: L).length
            · have h2 : pat <+: c :: L :=
                prefix_of_append_le pat (c :: L) ('/' :: rest) hpre hl
              have h3 : List.isPrefixOf pat (c :: L) = true :=
                List.isPrefixOf_iff_prefix.mpr h2
              rw [hocc.1] at h3
              exact Bool.false_ne_true h3
            · exact hps (mem_of_prefix_append_lt pat (c :: L) '/' rest hpre (by omega))
      have hstep : replaceAll pat rep ((c :: L) ++ '/' :: rest) =
          c :: replaceAll pat rep (L ++ '/' :: rest) := by
        rw [replaceAll_def, List.cons_append, replA_cons_zero, hnp]
        simp only [Bool.false_and, Bool.false_eq_true, if_false]
        rfl
      rw [hstep, ih rest hocc.2, List.cons_append]

/-- Candidate save path `os.path.join(location, 'cover{count}.{extension}')`. -/
def mkCandidate (location ext : List Char) (count : Nat) : List Char :=
  joinPathL location ("cover".data ++ natToDecL count ++ '.' :: ext)

/-- The `while os.path.isfile(save_path)` probe loop of `make_save_path`,
with explicit fuel.  `make_save_path` supplies fuel `fs.length + 1`;
the claim-C3 theorem shows the loop always exits normally within that
fuel, so the fuel-exhausted arm is unreachable. -/
def probeLoop (fs : List (List Char)) (location ext : List Char) :
    Nat → List (List Char) → Nat → List Char × List (List Char)
  | count, ll, 0 => (mkCandidate location ext count, ll)
  | count, ll, fuel + 1 =>
      if mkCandidate location ext count ∈ fs then
        probeLoop fs location ext (count + 1) (ll ++ [location]) fuel
      else (mkCandidate location ext count, ll)

/-- Embedding of `make_save_path(mime, flac_filename, loc_list)` against a
filesystem `fs` (the list of file paths that exist on disk): returns the
chosen save path together with the updated `loc_list`. -/
def make_save_path (fs : List (List Char)) (mime flac_filename : List Char)
    (loc_list : List (List Char)) : List Char × List (List Char) :=
  let extension := extFromMime mime
  let location := dirnameL flac_filename
  let count := loc_list.count location + 1
  let ll := loc_list ++ [location]
  let save_path := replaceAll "cover1.".data "cover.".data
    (mkCandidate location extension count)
  if save_path ∈ fs then
    probeLoop fs location extension (count + 1) (ll ++ [location]) (fs.length + 1)
  else (save_path, ll)

theorem probeLoop_succ (fs : List (List Char)) (loc ext : List Char)
    (count : Nat) (ll : List (List Char)) (fuel : Nat) :
    probeLoop fs loc ext count ll (fuel + 1) =
      if mkCandidate loc ext count ∈ fs then
        probeLoop fs loc ext (count + 1) (ll ++ [loc]) fuel
      else (mkCandidate loc ext count, ll) := rfl

theorem make_save_path_eq (fs : List (List Char)) (mime fname : List Char)
    (ll : List (List Char)) :
    make_save_path fs mime fname ll =
      if replaceAll "cover1.".data "cover.".data
          (mkCandidate (dirnameL fname) (extFromMime mime)
            (ll.count (dirnameL fname) + 1)) ∈ fs then
        probeLoop fs (dirnameL fname) (extFromMime mime)
          (ll.count (dirnameL fname) + 1 + 1)
          ((ll ++ [dirnameL fname]) ++ [dirnameL fname]) (fs.length + 1)
      else
        (replaceAll "cover1.".data "cover.".data
          (mkCandidate (dirnameL fname) (extFromMime mime)
            (ll.count (dirnameL fname) + 1)),
         ll ++ [dirnameL fname]) := rfl

/-! ### Supporting lemmas for the save-path theorems -/

theorem cover_data_eq : "cover".data = ['c', 'o', 'v', 'e', 'r'] := rfl

theorem head?_ne_slash_of_not_mem (l : List Char) (h : '/' ∉ l) :
    l.head? ≠ some '/' := by
  cases l with
  | nil => simp
  | cons c t =>
      simp only [List.head?_cons, ne_eq, Option.some.injEq]
      exact fun he => h (he ▸ List.mem_cons_self _ _)

theorem extFromMime_no_slash (mime : List Char) : '/' ∉ extFromMime mime := by
  rw [extFromMime]
  cases hs : splitSlash mime with
  | nil => exact absurd hs (splitSlash_ne_nil mime)
  | cons g gs =>
      cases gs with
      | nil =>
          show ('/' : Char) ∉ "pic".data
          decide
      | cons sub rest =>
          intro hmem
          rcases mem_replA "jpeg".data "jpg".data sub 0 '/' hmem with h | h
          · exact mem_splitSlash mime sub
              (hs ▸ List.mem_cons_of_mem _ (List.mem_cons_self _ _)) h
          · simp [String.data] at h

theorem coverBase_no_slash (k : Nat) (ext : List Char) (hext : '/' ∉ ext) :
    '/' ∉ "cover".data ++ natToDecL k ++ '.' :: ext := by
  intro hmem
  rcases List.mem_append.mp hmem with h | h
  · rcases List.mem_append.mp h with h2 | h2
    · exact absurd h2 (by decide)
    · exact slash_not_mem_natToDecL k h2
  · rcases List.mem_cons.mp h with h3 | h3
    · exact absurd h3 (by decide)
    · exact hext h3

theorem probeLoop_fst_shape (fs : List (List Char)) (loc ext : List Char) :
    ∀ fuel count ll, ∃ k,
      (probeLoop fs loc ext count ll fuel).1 = mkCandidate loc ext k := by
  intro fuel
  induction fuel with
  | zero => intro count ll; exact ⟨count, rfl⟩
  | succ fuel ih =>
      intro count ll
      rw [probeLoop_succ]
      by_cases hc : mkCandidate loc ext count ∈ fs
      · rw [if_pos hc]; exact ih (count + 1) (ll ++ [loc])
      · rw [if_neg hc]; exact ⟨count, rfl⟩

theorem coverBase_head_ne (d e : List Char) :
    (("cover".data ++ d) ++ e).head? ≠ some '/' := by
  rw [cover_data_eq]
  intro he
  simp at he

theorem slash_not_mem_replaceAll (pat rep s : List Char)
    (hs : '/' ∉ s) (hr : '/' ∉ rep) : '/' ∉ replaceAll pat rep s := by
  intro hm
  rcases mem_replA pat rep s 0 '/' hm with h | h
  · exact hs h
  · exact hr h

/-- Replacement distributes over `joinPathL` when the pattern cannot cross
the separator inserted by the join and does not occur in the directory
part. -/
theorem replaceAll_joinPathL (pat rep loc b : List Char)
    (hpne : pat ≠ []) (hps : '/' ∉ pat)
    (hshape : DirShape loc) (hocc : occursIn pat loc = false)
    (hbh : b.head? ≠ some '/')
    (hbh2 : (replaceAll pat rep b).head? ≠ some '/') :
    replaceAll pat rep (joinPathL loc b) = joinPathL loc (replaceAll pat rep b) := by
  rcases hshape with rfl | ⟨hne, hall⟩ | ⟨hne, hlast⟩
  · rw [joinPathL, if_neg hbh, if_pos rfl, joinPathL, if_neg hbh2, if_pos rfl]
  · have hlast : loc.getLast? = some '/' := getLast?_all_slash loc hne hall
    rw [joinPathL, if_neg hbh, if_neg hne, if_pos hlast,
        joinPathL, if_neg hbh2, if_neg hne, if_pos hlast]
    obtain ⟨loc2, rfl⟩ : ∃ loc2, loc = loc2 ++ ['/'] := by
      refine ⟨loc.dropLast, ?_⟩
      have hg : loc.getLast hne = '/' := by
        have h2 := List.getLast?_eq_getLast loc hne
        rw [h2] at hlast
        exact Option.some.inj hlast
      rw [← hg]
      exact (List.dropLast_append_getLast hne).symm
    have hocc2 : occursIn pat loc2 = false := by
      cases ho : occursIn pat loc2 with
      | false => rfl
      | true =>
          have h3 := occursIn_append_right pat loc2 ['/'] ho
          rw [hocc] at h3
          exact absurd h3 (by simp)
    rw [List.append_assoc, List.singleton_append,
        replaceAll_append_sep pat rep hpne hps loc2 b hocc2,
        List.append_assoc, List.singleton_append]
  · rw [joinPathL, if_neg hbh, if_neg hne, if_neg hlast,
        joinPathL, if_neg hbh2, if_neg hne, if_neg hlast]
    exact replaceAll_append_sep pat rep hpne hps loc b hocc

/-! ## Theorems for claims C3 and C4 (save-path naming and location) -/

/-- Counterexample for C4 as stated: for the source file `cover1.d/s.flac`
the saved picture's directory is `cover.d`, not the source directory
`cover1.d`, because `replace('cover1.', 'cover.')` also rewrites the
directory component of the joined path. -/
theorem flacfixer_C4_counterexample :
    dirnameL (make_save_path [] "image/png".data "cover1.d/s.flac".data []).1 ≠
      dirnameL "cover1.d/s.flac".data := by decide

/-- C4 amended: whenever the literal `cover1.` does not occur in the source
file's directory, every archived picture path returned by `make_save_path`
has exactly the source file's directory as its directory component. -/
theorem flacfixer_C4_amended (fs : List (List Char)) (mime fname : List Char)
    (ll : List (List Char))
    (h : occursIn "cover1.".data (dirnameL fname) = false) :
    dirnameL (make_save_path fs mime fname ll).1 = dirnameL fname := by
  rw [make_save_path_eq]
  by_cases hmem : replaceAll "cover1.".data "cover.".data
      (mkCandidate (dirnameL fname) (extFromMime mime)
        (ll.count (dirnameL fname) + 1)) ∈ fs
  · rw [if_pos hmem]
    obtain ⟨k, hk⟩ := probeLoop_fst_shape fs (dirnameL fname) (extFromMime mime)
      (fs.length + 1) (ll.count (dirnameL fname) + 1 + 1)
      ((ll ++ [dirnameL fname]) ++ [dirnameL fname])
    rw [hk, mkCandidate]
    exact dirnameL_joinPathL _ _ (dirnameL_shape fname)
      (coverBase_no_slash k _ (extFromMime_no_slash mime))
      (coverBase_head_ne _ _)
  · rw [if_neg hmem, mkCandidate,
      replaceAll_joinPathL "cover1.".data "cover.".data (dirnameL fname)
        ("cover".data ++ natToDecL (ll.count (dirnameL fname) + 1) ++ '.' ::
          extFromMime mime)
        (by decide) (by decide) (dirnameL_shape fname) h
        (coverBase_head_ne _ _)
        (head?_ne_slash_of_not_mem _
          (slash_not_mem_replaceAll _ _ _
            (coverBase_no_slash _ _ (extFromMime_no_slash mime)) (by decide)))]
    exact dirnameL_joinPathL _ _ (dirnameL_shape fname)
      (slash_not_mem_replaceAll _ _ _
        (coverBase_no_slash _ _ (extFromMime_no_slash mime)) (by decide))
      (head?_ne_slash_of_not_mem _
        (slash_not_mem_replaceAll _ _ _
          (coverBase_no_slash _ _ (extFromMime_no_slash mime)) (by decide)))

/-- Witness for the amended C4: a picture from `a/b.flac` is saved in `a`. -/
theorem flacfixer_C4_witness :
    dirnameL (make_save_path [] "image/png".data "a/b.flac".data []).1 =
      dirnameL "a/b.flac".data :=
  flacfixer_C4_amended [] "image/png".data "a/b.flac".data [] (by decide)

/-! ## Picture archiver (source: `get_md5`, `save_pictures`) -/

/-- An embedded picture block as the archiver sees it: declared MIME type
and raw bytes. -/
structure Picture where
  mime : List Char
  data : List Nat

/-- Modelled collaborator: `hashlib.md5(data).digest()`.  The digest is
abstracted as the byte content itself; the theorems below rely only on the
digest being a deterministic function of the bytes. -/
def get_md5 (data : List Nat) : List Nat := data

/-- Shared archiver state of one run: the dedup set `saved_pics`, the
per-directory location list `loc_list`, the filesystem, and the log of
performed picture writes. -/
structure ArchSt where
  saved_pics : List (List Nat)
  loc_list : List (List Char)
  fs : List (List Char)
  writes : List (List Char × List Nat)

/-- One iteration of the loop in `save_pictures` for picture `pic` of file
`fname`.  `write_fails` models the file write raising `OSError`; the
returned flag is true when the iteration raised.  With
`write_fails = false` this is exactly the source loop body: skip when the
checksum is already known, otherwise add the checksum to the set, compute
the save path and write the file. -/
def save_one_exc (write_fails : Bool) (st : ArchSt) (fname : List Char)
    (pic : Picture) : ArchSt × Bool :=
  if get_md5 pic.data ∈ st.saved_pics then (st, false)
  else
    let st1 : ArchSt := { st with saved_pics := get_md5 pic.data :: st.saved_pics }
    let r := make_save_path st1.fs pic.mime fname st1.loc_list
    let st2 : ArchSt := { st1 with loc_list := r.2 }
    if write_fails then (st2, true)
    else
      ({ st2 with fs := r.1 :: st2.fs, writes := st2.writes ++ [(r.1, pic.data)] },
        false)

/-- The loop body when the write succeeds (the source's normal path). -/
def save_one (st : ArchSt) (fname : List Char) (pic : Picture) : ArchSt :=
  (save_one_exc false st fname pic).1

/-- Embedding of `save_pictures(flac, saved_pics, loc_list)`: iterate the
loop body over the file's pictures in block order. -/
def save_pictures (st : ArchSt) (fname : List Char) (pics : List Picture) : ArchSt :=
  pics.foldl (fun s p => save_one s fname p) st

/-- A whole run of the archiver over a batch of files with shared state. -/
def runArchive (files : List (List Char × List Picture)) (st : ArchSt) : ArchSt :=
  files.foldl (fun s f => save_pictures s f.1 f.2) st

/-- Initial archiver state of `main`: empty dedup set and location list,
an arbitrary pre-existing filesystem, no writes performed yet. -/
def initSt (fs : List (List Char)) : ArchSt :=
  { saved_pics := [], loc_list := [], fs := fs, writes := [] }

/-- Number of archive writes whose content is `b`. -/
def countWrites (st : ArchSt) (b : List Nat) : Nat :=
  (st.writes.filter (fun w => w.2 == b)).length

theorem save_one_skip (st : ArchSt) (fname : List Char) (pic : Picture)
    (h : get_md5 pic.data ∈ st.saved_pics) : save_one st fname pic = st := by
  rw [save_one, save_one_exc, if_pos h]

theorem save_one_write (st : ArchSt) (fname : List Char) (pic : Picture)
    (hc : get_md5 pic.data ∉ st.saved_pics) :
    save_one st fname pic =
      { saved_pics := get_md5 pic.data :: st.saved_pics,
        loc_list := (make_save_path st.fs pic.mime fname st.loc_list).2,
        fs := (make_save_path st.fs pic.mime fname st.loc_list).1 :: st.fs,
        writes := st.writes ++
          [((make_save_path st.fs pic.mime fname st.loc_list).1, pic.data)] } := by
  rw [save_one, save_one_exc, if_neg hc]
  rfl

/-- The dedup invariant for one byte content `b`: at most one write of `b`
so far, and no write of `b` unless its checksum is in the dedup set. -/
theorem countWrites_mk (sp : List (List Nat)) (ll fs2 : List (List Char))
    (w : List (List Char × List Nat)) (b : List Nat) :
    countWrites { saved_pics := sp, loc_list := ll, fs := fs2, writes := w } b =
      (w.filter (fun x => x.2 == b)).length := rfl

def DedupInv (b : List Nat) (st : ArchSt) : Prop :=
  countWrites st b ≤ 1 ∧ (get_md5 b ∈ st.saved_pics ∨ countWrites st b = 0)

theorem dedupInv_save_one (b : List Nat) (st : ArchSt) (fname : List Char)
    (pic : Picture) (h : DedupInv b st) : DedupInv b (save_one st fname pic) := by
  by_cases hc : get_md5 pic.data ∈ st.saved_pics
  · rw [save_one_skip st fname pic hc]
    exact h
  · rw [save_one_write st fname pic hc]
    by_cases hb : pic.data = b
    · subst hb
      have hz : countWrites st pic.data = 0 := by
        rcases h.2 with h2 | h2
        · exact absurd h2 hc
        · exact h2
      constructor
      · rw [countWrites_mk, List.filter_append, List.length_append]
        have h0 : (List.filter (fun w => w.2 == pic.data) st.writes).length = 0 := hz
        rw [h0]
        simp
      · exact Or.inl (List.mem_cons_self _ _)
    · have hcount : countWrites
          { saved_pics := get_md5 pic.data :: st.saved_pics,
            loc_list := (make_save_path st.fs pic.mime fname st.loc_list).2,
            fs := (make_save_path st.fs pic.mime fname st.loc_list).1 :: st.fs,
            writes := st.writes ++
              [((make_save_path st.fs pic.mime fname st.loc_list).1, pic.data)] } b =
          countWrites st b := by
        rw [countWrites_mk, List.filter_append, List.length_append]
        have h0 : (List.filter (fun x => x.2 == b)
            [((make_save_path st.fs pic.mime fname st.loc_list).1, pic.data)]).length = 0 := by
          simp [hb]
        rw [h0]
        rfl
      constructor
      · rw [hcount]; exact h.1
      · rcases h.2 with h2 | h2
        · exact Or.inl (List.mem_cons_of_mem _ h2)
        · rw [hcount]; exact Or.inr h2

theorem dedupInv_save_pictures (b : List Nat) (fname : List Char) :
    ∀ (pics : List Picture) (st : ArchSt), DedupInv b st →
      DedupInv b (save_pictures st fname pics) := by
  intro pics
  induction pics with
  | nil => intro st h; exact h
  | cons p pics ih =>
      intro st h
      exact ih (save_one st fname p) (dedupInv_save_one b st fname p h)

theorem dedupInv_runArchive (b : List Nat) :
    ∀ (files : List (List Char × List Picture)) (st : ArchSt), DedupInv b st →
      DedupInv b (runArchive files st) := by
  intro files
  induction files with
  | nil => intro st h; exact h
  | cons f files ih =>
      intro st h
      exact ih (save_pictures st f.1 f.2) (dedupInv_save_pictures b f.1 f.2 st h)

/-! ## Theorems for claims C2 and C10 (dedup and failure atomicity) -/

/-- C2: within one run with shared archiver state, a picture whose checksum
is already recorded is skipped without touching any state (no new file, no
write), and over any batch of files, at most one write is ever performed
for any given byte content — no matter how many files or directories
reference byte-identical pictures. -/
theorem flacfixer_C2 :
    (∀ st fname pic, get_md5 pic.data ∈ st.saved_pics →
      save_one st fname pic = st) ∧
    (∀ files fs b, countWrites (runArchive files (initSt fs)) b ≤ 1) := by
  constructor
  · exact save_one_skip
  · intro files fs b
    refine (dedupInv_runArchive b files (initSt fs) ⟨?_, Or.inr ?_⟩).1
    · simp [countWrites, initSt]
    · simp [countWrites, initSt]

/-- Witness for C2: a run with one file holding two byte-identical pictures
writes at most once, and a picture whose checksum is known is skipped. -/
theorem flacfixer_C2_witness :
    save_one { saved_pics := [[7]], loc_list := [], fs := [], writes := [] }
        "a/b.flac".data ⟨"image/png".data, [7]⟩ =
      { saved_pics := [[7]], loc_list := [], fs := [], writes := [] } ∧
    countWrites
      (runArchive
        [("a/b.flac".data, [⟨"image/png".data, [7]⟩, ⟨"image/png".data, [7]⟩])]
        (initSt [])) [7] ≤ 1 :=
  ⟨flacfixer_C2.1 _ _ _ (by decide), flacfixer_C2.2 _ [] [7]⟩

/-- C10: archiving is not atomic with respect to the dedup state: for a
picture whose checksum is not yet recorded, the checksum is added to the
set before the write is attempted, so when the write raises the checksum
stays recorded, no write is logged, and every later byte-identical picture
is skipped (the dedup set only ever grows). -/
theorem flacfixer_C10 (st : ArchSt) (fname : List Char) (pic : Picture)
    (h : get_md5 pic.data ∉ st.saved_pics) :
    ((save_one_exc true st fname pic).2 = true) ∧
    (get_md5 pic.data ∈ (save_one_exc true st fname pic).1.saved_pics) ∧
    ((save_one_exc true st fname pic).1.writes = st.writes) ∧
    (∀ st2 wf fname2 pic2, get_md5 pic.data ∈ st2.saved_pics →
      pic2.data = pic.data → save_one_exc wf st2 fname2 pic2 = (st2, false)) ∧
    (∀ st2 wf fname2 pic2 d, d ∈ st2.saved_pics →
      d ∈ (save_one_exc wf st2 fname2 pic2).1.saved_pics) := by
  refine ⟨?_, ?_, ?_, ?_, ?_⟩
  · rw [save_one_exc, if_neg h]
    rfl
  · rw [save_one_exc, if_neg h]
    exact List.mem_cons_self _ _
  · rw [save_one_exc, if_neg h]
    rfl
  · intro st2 wf fname2 pic2 hmem hdata
    have hmem2 : get_md5 pic2.data ∈ st2.saved_pics := by
      rw [get_md5, hdata]
      exact hmem
    rw [save_one_exc, if_pos hmem2]
  · intro st2 wf fname2 pic2 d hd
    by_cases hc : get_md5 pic2.data ∈ st2.saved_pics
    · rw [save_one_exc, if_pos hc]
      exact hd
    · rw [save_one_exc, if_neg hc]
      cases wf with
      | true => exact List.mem_cons_of_mem _ hd
      | false => exact List.mem_cons_of_mem _ hd

/-- Witness for C10: a failed write of a fresh picture still records its
checksum and logs no write. -/
theorem flacfixer_C10_witness :
    ((save_one_exc true (initSt []) "a/b.flac".data
        ⟨"image/png".data, [3]⟩).2 = true) ∧
    (get_md5 [3] ∈ (save_one_exc true (initSt []) "a/b.flac".data
        ⟨"image/png".data, [3]⟩).1.saved_pics) ∧
    ((save_one_exc true (initSt []) "a/b.flac".data
        ⟨"image/png".data, [3]⟩).1.writes = (initSt []).writes) :=
  ⟨(flacfixer_C10 (initSt []) "a/b.flac".data ⟨"image/png".data, [3]⟩ (by decide)).1,
   (flacfixer_C10 (initSt []) "a/b.flac".data ⟨"image/png".data, [3]⟩ (by decide)).2.1,
   (flacfixer_C10 (initSt []) "a/b.flac".data ⟨"image/png".data, [3]⟩ (by decide)).2.2.1⟩

/-! ## Container model and per-file orchestration (source: `FlacProps`,
`track_work`, `main`) -/

/-- A metadata block of the container as the source reads it: numeric block
code (6 = picture, 1 = padding), picture payload with dimensions and MIME
type, and the block length used for padding blocks. -/
structure MBlock where
  code : Nat
  data : List Nat
  width : Nat
  height : Nat
  length : Nat
  mime : List Char

/-- An opened container file: path, raw bytes, metadata blocks. -/
structure FlacFile where
  filename : List Char
  bytes : List Nat
  blocks : List MBlock

/-- The picture blocks, as `flac.pictures` exposes them to `save_pictures`. -/
def FlacFile.pictures (f : FlacFile) : List Picture :=
  (f.blocks.filter (fun b => b.code == 6)).map (fun b => ⟨b.mime, b.data⟩)

/-- Embedding of `flac.clear_pictures()`. -/
def clear_pictures (f : FlacFile) : FlacFile :=
  { f with blocks := f.blocks.filter (fun b => !(b.code == 6)) }

/-- Embedding of `FlacProps`: the before/after snapshot of one file. -/
structure FlacProps where
  filename : List Char
  base_path : List Char
  file_size : Nat
  id3_headers : Option (List String)
  pic_list : List (Nat × Nat × Nat)
  pad_list : List Nat

/-- Embedding of `FlacProps.__init__`: classify the metadata blocks and
record size, picture descriptors and padding lengths. -/
def mkFlacProps (f : FlacFile) (base : List Char) : FlacProps :=
  { filename := f.filename
    base_path := base
    file_size := f.bytes.length
    id3_headers := none
    pic_list := (f.blocks.filter (fun b => b.code == 6)).map
      (fun b => (b.data.length, b.width, b.height))
    pad_list := (f.blocks.filter (fun b => b.code == 1)).map (fun b => b.length) }

/-- Modelled from the spec: the external container codec's commit
(`flac.save(padding=..., deleteid3=...)`, spec section 6 — the codec is an
external collaborator and the binary layout is out of scope).  The padding
callback decides the new total padding from the current one; the committed
file carries the surviving blocks plus one padding block of the computed
size; the legacy trailer is cut when requested; the byte size changes by
the padding delta minus the cut trailer.  Reload after commit returns this
same file, so `track_work` reuses the result directly. -/
def codecSave (f : FlacFile) (pad_fn : Int → Int) (deleteid3 : Bool) : FlacFile :=
  let oldPad : Nat := ((f.blocks.filter (fun b => b.code == 1)).map
    (fun b => b.length)).sum
  let newPad : Nat := (pad_fn (oldPad : Int)).toNat
  let trailerCut : Nat :=
    if deleteid3 ∧ readAt f.bytes (f.bytes.length - 128) 3 = [0x54, 0x41, 0x47]
    then 128 else 0
  { filename := f.filename
    bytes := List.replicate (f.bytes.length - oldPad - trailerCut + newPad) 0
    blocks := (f.blocks.filter (fun b => !(b.code == 1))) ++
      [{ code := 1, data := [], width := 0, height := 0, length := newPad,
         mime := [] }] }

/-- One observable effect of the rewrite path. -/
inductive Eff where
  | commit (deleteid3 : Bool)

/-- Embedding of `track_work`: `openResult` is the outcome of
`mutagen.flac.FLAC(file_path)` (`none` when `FLACNoHeaderError` was raised
and caught, in which case the function returns `None`).  Returns the
optional `(before, after)` snapshot pair, the archiver state, and the
commit effects; an uncaught exception from the legacy-tag probe is an
`Except.error`. -/
def track_work (openResult : Option FlacFile) (base_path : List Char)
    (padding_args : Int × Int × Int) (checkonly keep_id3 keep_pic pic_save : Bool)
    (st : ArchSt) :
    Except String (Option (FlacProps × Option FlacProps) × ArchSt × List Eff) :=
  match openResult with
  | none => .ok (none, st, [])
  | some flac =>
      match check_id3_header flac.bytes with
      | .error e => .error e
      | .ok headers =>
          let fb : FlacProps :=
            { mkFlacProps flac base_path with id3_headers := some headers }
          if checkonly then .ok (some (fb, none), st, [])
          else
            let step1 : FlacFile × ArchSt :=
              if fb.pic_list.isEmpty then (flac, st)
              else
                (if keep_pic then flac else clear_pictures flac,
                 if pic_save then save_pictures st flac.filename flac.pictures
                 else st)
            let delete_id3 : Bool := !headers.isEmpty && !keep_id3
            let flac2 := codecSave step1.1
              (padding_rules padding_args.1 padding_args.2.1 padding_args.2.2)
              delete_id3
            let fa := mkFlacProps flac2 base_path
            .ok (some (fb, some fa), step1.2, [Eff.commit delete_id3])

/-- Embedding of the per-file loop of `main`: processes files in order,
skipping invalid ones (`if not track_info: continue`), collecting size
deltas (unless check-only) and the reported before-snapshots.  An uncaught
exception aborts the run. -/
def mainLoop (base_path : List Char) (padding_args : Int × Int × Int)
    (checkonly keep_id3 keep_pic pic_save : Bool) :
    List (Option FlacFile) → ArchSt → List Int → List FlacProps →
      Except String (ArchSt × List Int × List FlacProps)
  | [], st, changes, reports => .ok (st, changes, reports)
  | f :: rest, st, changes, reports =>
      match track_work f base_path padding_args checkonly keep_id3 keep_pic
        pic_save st with
      | .error e => .error e
      | .ok (none, st2, _) =>
          mainLoop base_path padding_args checkonly keep_id3 keep_pic pic_save
            rest st2 changes reports
      | .ok (some (fb, aft), st2, _) =>
          if checkonly then
            mainLoop base_path padding_args checkonly keep_id3 keep_pic pic_save
              rest st2 changes (reports ++ [fb])
          else
            match aft with
            | some fa =>
                mainLoop base_path padding_args checkonly keep_id3 keep_pic
                  pic_save rest st2
                  (changes ++ [(fa.file_size : Int) - (fb.file_size : Int)])
                  (reports ++ [fb])
            | none => .error "AttributeError"

theorem mainLoop_cons (base_path : List Char) (padding_args : Int × Int × Int)
    (checkonly keep_id3 keep_pic pic_save : Bool) (f : Option FlacFile)
    (rest : List (Option FlacFile)) (st : ArchSt) (changes : List Int)
    (reports : List FlacProps) :
    mainLoop base_path padding_args checkonly keep_id3 keep_pic pic_save
        (f :: rest) st changes reports =
      match track_work f base_path padding_args checkonly keep_id3 keep_pic
        pic_save st with
      | .error e => .error e
      | .ok (none, st2, _) =>
          mainLoop base_path padding_args checkonly keep_id3 keep_pic pic_save
            rest st2 changes reports
      | .ok (some (fb, aft), st2, _) =>
          if checkonly then
            mainLoop base_path padding_args checkonly keep_id3 keep_pic pic_save
              rest st2 changes (reports ++ [fb])
          else
            match aft with
            | some fa =>
                mainLoop base_path padding_args checkonly keep_id3 keep_pic
                  pic_save rest st2
                  (changes ++ [(fa.file_size : Int) - (fb.file_size : Int)])
                  (reports ++ [fb])
            | none => .error "AttributeError" := rfl

/-! ## Theorems for claims C7 and C8 (check-only mode and invalid files) -/

/-- Counterexample for C7 as stated: a valid container file of 42 bytes
(the minimal FLAC size) opened in check-only mode does not return the
before snapshot — the legacy-tag probe raises before the check-only branch
is reached and the exception propagates out of `track_work`. -/
theorem flacfixer_C7_counterexample :
    track_work (some ⟨"a.flac".data, List.replicate 42 0, []⟩) "a.flac".data
        (8, 20, 4) true false false false (initSt []) =
      .error "Invalid argument" := rfl

/-- C7 amended: in check-only mode, processing a container file that opened
successfully *and is at least 128 bytes long* performs zero writes of any
kind: the archiver state is returned untouched, no commit effect is
produced, and the result carries only the before snapshot — the after
component is absent.  (For shorter files the legacy-tag probe raises first;
see C5 and the counterexample above.) -/
theorem flacfixer_C7 (f : FlacFile) (base : List Char)
    (pargs : Int × Int × Int) (ki kp ps : Bool) (st : ArchSt)
    (h : 128 ≤ f.bytes.length) :
    ∃ headers, check_id3_header f.bytes = .ok headers ∧
      track_work (some f) base pargs true ki kp ps st =
        .ok (some ({ mkFlacProps f base with id3_headers := some headers },
          none), st, []) := by
  have hpos : ¬((f.bytes.length : Int) + (-128) < 0) := by omega
  obtain ⟨headers, hh⟩ : ∃ hs, check_id3_header f.bytes = .ok hs := by
    rw [check_id3_header, seekEnd, if_neg hpos]
    exact ⟨_, rfl⟩
  refine ⟨headers, hh, ?_⟩
  have heq : track_work (some f) base pargs true ki kp ps st =
      match check_id3_header f.bytes with
      | .error e => .error e
      | .ok hs =>
          .ok (some ({ mkFlacProps f base with id3_headers := some hs }, none),
            st, []) := rfl
  rw [heq, hh]

/-- Witness for C7: a check-only pass over a 128-byte file returns only the
before snapshot and leaves the state untouched. -/
theorem flacfixer_C7_witness :
    ∃ headers,
      check_id3_header (List.replicate 128 0) = .ok headers ∧
      track_work (some ⟨"a.flac".data, List.replicate 128 0, []⟩) "a.flac".data
          (8, 20, 4) true false false false (initSt []) =
        .ok (some ({ mkFlacProps ⟨"a.flac".data, List.replicate 128 0, []⟩
            "a.flac".data with id3_headers := some headers }, none),
          initSt [], []) :=
  flacfixer_C7 ⟨"a.flac".data, List.replicate 128 0, []⟩ "a.flac".data
    (8, 20, 4) false false false (initSt []) (by simp)

/-- C8: a file that fails to open as the expected container yields nothing
usable — the caller receives `none`, no error, no state change, no effects —
and the main loop treats such a file as if it were absent from the batch:
reports and size-delta aggregation are exactly those of the batch without
it. -/
theorem flacfixer_C8 :
    (∀ base pargs co ki kp ps st,
      track_work none base pargs co ki kp ps st = .ok (none, st, [])) ∧
    (∀ base pargs co ki kp ps pre post st changes reports,
      mainLoop base pargs co ki kp ps (pre ++ none :: post) st changes reports =
        mainLoop base pargs co ki kp ps (pre ++ post) st changes reports) := by
  constructor
  · intro base pargs co ki kp ps st
    rfl
  · intro base pargs co ki kp ps pre
    induction pre with
    | nil =>
        intro post st changes reports
        rfl
    | cons f pre ih =>
        intro post st changes reports
        rw [List.cons_append, List.cons_append, mainLoop_cons, mainLoop_cons]
        cases htw : track_work f base pargs co ki kp ps st with
        | error e => rfl
        | ok r =>
            obtain ⟨o, st2, effs⟩ := r
            cases o with
            | none => exact ih post st2 changes reports
            | some pr =>
                obtain ⟨fb, aft⟩ := pr
                cases co with
                | true =>
                    simp only [if_pos rfl]
                    exact ih post st2 changes (reports ++ [fb])
                | false =>
                    simp only [Bool.false_eq_true, if_false]
                    cases aft with
                    | some fa =>
                        exact ih post st2
                          (changes ++ [(fa.file_size : Int) - (fb.file_size : Int)])
                          (reports ++ [fb])
                    | none => rfl
